import Mathlib

/-!
Verification development for the playlist organizer
(`src/playlist_organizer.py`, class `PlaylistOrganizer`).

The core pipeline is pure: `analyze_playlist_content` scores one playlist
against a fixed category registry, `categorize_playlists` groups a snapshot
of playlists by winning category, and `generate_reorganization_plan` turns
the grouping into a plan with merge / rename / delete suggestions.

Modelling conventions:
- Python strings are `List Char`; `str.lower()` is per-character ASCII
  case folding (`Char.toLower`), which agrees with Python on ASCII text and
  leaves CJK text unchanged (exotic one-to-many Unicode lowerings are out of
  scope of every claim).
- `re.findall(keyword, text)` is modelled as leftmost non-overlapping
  literal substring counting (`countOcc`): every keyword in the registry is
  free of regex metacharacters, so the regex engine searches it literally,
  and `findall` advances past each match.
- Python numbers in the confidence computation are modelled in `ℚ`
  (exact arithmetic; no claim depends on IEEE-754 rounding of the division).
- `round(x, 2)` is modelled with round-half-to-even on `ℚ`, matching
  Python's banker's rounding at ties.
- The timestamp `datetime.now().isoformat()` is an explicit parameter of
  plan generation; it is the only non-input-determined value in the core.
- Python dicts are insertion-ordered; `self.categories`, the grouping
  produced by `categorize_playlists` and the plan's `categories` mapping are
  association lists in insertion order.
-/

/-- Python strings, modelled as character lists. -/
abbrev Str := List Char

/-- Scanner for non-overlapping matching: `skip` counts positions still
inside the previous match, at which no new match may start. -/
def countOccGo (pat : Str) : Str → Nat → Nat
  | [], _ => 0
  | _ :: rest, Nat.succ k => countOccGo pat rest k
  | c :: rest, 0 =>
    if pat.isPrefixOf (c :: rest) then 1 + countOccGo pat rest (pat.length - 1)
    else countOccGo pat rest 0

/-- Leftmost non-overlapping occurrence count of a literal pattern, the
behaviour of `len(re.findall(pat, s))` for a nonempty metacharacter-free
pattern: scan left to right and skip the whole match after a hit. -/
def countOcc (pat s : Str) : Nat := countOccGo pat s 0

/-- Occurrence count where overlapping matches are all counted (one test at
every start position).  This is the counting mode the spec sentence behind
C9 describes; it is compared against `countOcc`, the code's counting. -/
def countOccOverlap (pat : Str) : Str → Nat
  | [] => 0
  | c :: rest =>
    (if pat.isPrefixOf (c :: rest) then 1 else 0) + countOccOverlap pat rest

/-- Number of whitespace-separated tokens, the behaviour of
`len(s.split())`: maximal runs of non-whitespace characters are counted. -/
def wordCountAux : Str → Bool → Nat
  | [], _ => 0
  | c :: rest, inWord =>
    if c.isWhitespace then wordCountAux rest false
    else if inWord then wordCountAux rest true
    else 1 + wordCountAux rest true

/-- Token count of a string under Python `str.split()`. -/
def wordCount (s : Str) : Nat := wordCountAux s false

/-- Python `str.lower()` (ASCII case folding, per character). -/
def lowerStr (s : Str) : Str := s.map Char.toLower

/-- One video record: `{'title': ..., 'description': ...}`; absent fields
are already the empty string, as `video.get(..., '')` produces. -/
structure Video where
  title : Str
  description : Str
deriving DecidableEq

/-- One playlist record; absent fields are the defaults that
`playlist.get('title', '')`, `.get('description', '')`, `.get('videos', [])`,
`.get('video_count', 0)` and `.get('id', '')` produce. -/
structure Playlist where
  id : Str
  title : Str
  description : Str
  video_count : Nat
  videos : List Video
deriving DecidableEq

/-- One entry of `self.categories`: keywords, description, suggested name. -/
structure CategoryInfo where
  keywords : List Str
  description : Str
  suggested_name : Str
deriving DecidableEq

/-- A category registry: the insertion-ordered dict `self.categories`,
as an association list in insertion order. -/
abbrev Registry := List (Str × CategoryInfo)

/-- The sentinel category string `"Uncategorized"`. -/
def uncategorized : Str := "Uncategorized".toList

/-- The fixed registry `self.categories` of `PlaylistOrganizer.__init__`,
in its source order. -/
def organizerCategories : Registry :=
  [ ("AI_Programming".toList,
     { keywords := ["ai".toList, "claude".toList, "coding".toList,
                    "programming".toList, "vibe coding".toList,
                    "cursor".toList, "superclaude".toList],
       description := "AI编程开发".toList,
       suggested_name := "🤖 AI编程开发".toList }),
    ("Investment_Finance".toList,
     { keywords := ["bitcoin".toList, "crypto".toList, "investment".toList,
                    "finance".toList, "trading".toList, "加密".toList,
                    "投资".toList],
       description := "投资理财".toList,
       suggested_name := "💰 投资理财".toList }),
    ("Health_Wellness".toList,
     { keywords := ["康复".toList, "健康".toList, "筋膜".toList,
                    "物理治疗".toList, "health".toList, "wellness".toList,
                    "therapy".toList],
       description := "健康养生".toList,
       suggested_name := "🏥 健康养生".toList }),
    ("Gaming".toList,
     { keywords := ["黑神话".toList, "游戏".toList, "game".toList,
                    "gaming".toList, "wukong".toList, "攻略".toList],
       description := "游戏娱乐".toList,
       suggested_name := "🎮 游戏娱乐".toList }),
    ("Technology_Hardware".toList,
     { keywords := ["pc".toList, "diy".toList, "hardware".toList,
                    "tech".toList, "computer".toList, "rtx".toList,
                    "cpu".toList],
       description := "科技硬件".toList,
       suggested_name := "🔧 科技硬件".toList }),
    ("Music_Relaxation".toList,
     { keywords := ["music".toList, "lo-fi".toList, "lofi".toList,
                    "relaxation".toList, "音乐".toList, "放松".toList,
                    "jazz".toList],
       description := "音乐放松".toList,
       suggested_name := "🎵 音乐放松".toList }),
    ("Education_Learning".toList,
     { keywords := ["tutorial".toList, "education".toList,
                    "learning".toList, "教程".toList, "学习".toList,
                    "课程".toList],
       description := "教育学习".toList,
       suggested_name := "📚 教育学习".toList }) ]

/-- The `video_content` accumulation loop: for each video append
a space, its title, a space, its description. -/
def videoContent (videos : List Video) : Str :=
  videos.foldl (fun acc v => acc ++ [' '] ++ v.title ++ [' '] ++ v.description) []

/-- Raw score of one category on the three lowered buckets:
`score += title_matches * 3 + description_matches * 2 + video_matches * 1`
accumulated over the category's keywords. -/
def rawScore (info : CategoryInfo) (title description video_content : Str) : Nat :=
  info.keywords.foldl
    (fun score kw =>
      score + (countOcc kw title * 3 + countOcc kw description * 2 +
               countOcc kw video_content * 1))
    0

/-- Python `max(pairs, key=value)` on a nonempty association list: the first
element attaining the maximal value wins (later elements replace the champion
only on a strictly greater value). -/
def argmaxFirst : List (Str × Nat) → Option (Str × Nat)
  | [] => none
  | x :: xs => some (xs.foldl (fun best y => if y.2 > best.2 then y else best) x)

/-- Python `max` of the score values of a nonempty list. -/
def listMax : List (Str × Nat) → Option Nat
  | [] => none
  | x :: xs => some ((xs.map Prod.snd).foldl max x.2)

/-- The three lowered text buckets of a playlist, in source order:
lowered title, lowered description, lowered video content. -/
def buckets (p : Playlist) : Str × Str × Str :=
  (lowerStr p.title, lowerStr p.description, lowerStr (videoContent p.videos))

/-- The combined text `all_content = f"{title} {description} {video_content}"`
built from the lowered buckets. -/
def allContent (p : Playlist) : Str :=
  (buckets p).1 ++ [' '] ++ (buckets p).2.1 ++ [' '] ++ (buckets p).2.2

/-- The `category_scores` dict: every registry category paired with its raw
score on the playlist's buckets, in registry order. -/
def categoryScores (cats : Registry) (p : Playlist) : List (Str × Nat) :=
  cats.map (fun ci => (ci.1, rawScore ci.2 (buckets p).1 (buckets p).2.1 (buckets p).2.2))

/-- The method `analyze_playlist_content`: returns the winning category and
a confidence in `[0, 1]`, or `("Uncategorized", 0.0)` when the score table
is empty or its maximum is zero. -/
def analyze_playlist_content (cats : Registry) (p : Playlist) : Str × ℚ :=
  let category_scores := categoryScores cats p
  match argmaxFirst category_scores, listMax category_scores with
  | some best, some m =>
    if m = 0 then (uncategorized, 0)
    else
      let confidence : ℚ :=
        min ((best.2 : ℚ) / max ((wordCount (allContent p) : ℚ) / 10) 1) 1
      (best.1, confidence)
  | _, _ => (uncategorized, 0)

/-- The snapshot `self.playlists_data`: the loaded backup with its stated
`total_playlists` and the playlist list. -/
structure PlaylistData where
  total_playlists : Nat
  playlists : List Playlist
deriving DecidableEq

/-- The per-playlist record `playlist_info` built by `categorize_playlists`. -/
structure PlaylistInfo where
  original_data : Playlist
  category : Str
  confidence : ℚ
  video_count : Nat
  title : Str
  id : Str
deriving DecidableEq

/-- Build the `playlist_info` dict for one playlist. -/
def mkInfo (cats : Registry) (p : Playlist) : PlaylistInfo :=
  { original_data := p
    category := (analyze_playlist_content cats p).1
    confidence := (analyze_playlist_content cats p).2
    video_count := p.video_count
    title := p.title
    id := p.id }

/-- The `defaultdict(list)` grouping, as an association list in key
insertion order (Python dicts preserve insertion order). -/
abbrev Grouping := List (Str × List PlaylistInfo)

/-- `categorized[category].append(info)` on the insertion-ordered dict:
append to the existing group, or add a new key at the end. -/
def addToGroup : Grouping → PlaylistInfo → Grouping
  | [], i => [(i.category, [i])]
  | (c, l) :: rest, i =>
    if c = i.category then (c, l ++ [i]) :: rest
    else (c, l) :: addToGroup rest i

/-- The method `categorize_playlists`: one pass over the snapshot,
grouping each playlist's info record under its winning category. -/
def categorize_playlists (cats : Registry) (d : PlaylistData) : Grouping :=
  d.playlists.foldl (fun acc p => addToGroup acc (mkInfo cats p)) []

/-- Dictionary access `categorized[c]`, with `[]` for an absent key
(mirroring the `in`-guarded access of the plan builder). -/
def groupOf : Grouping → Str → List PlaylistInfo
  | [], _ => []
  | (c, l) :: rest, c' => if c = c' then l else groupOf rest c'

/-- Round-half-to-even to an integer, Python's `round` on exact values. -/
def roundHalfEven (q : ℚ) : ℤ :=
  if q - ⌊q⌋ < 1/2 then ⌊q⌋
  else if 1/2 < q - ⌊q⌋ then ⌊q⌋ + 1
  else if ⌊q⌋ % 2 = 0 then ⌊q⌋ else ⌊q⌋ + 1

/-- Python `round(q, 2)` on the exact model of the confidence value. -/
def round2 (q : ℚ) : ℚ := (roundHalfEven (q * 100) : ℚ) / 100

/-- Registry lookup: the first (hence, keys being unique, the only) entry
with the given key, as `self.categories.get(category, {})`. -/
def lookupCat : Registry → Str → Option CategoryInfo
  | [], _ => none
  | (c, info) :: rest, c' => if c = c' then some info else lookupCat rest c'

/-- The expression `category_info.get('suggested_name', category)`:
the registry's suggested name, defaulting to the category key itself. -/
def suggestedNameOf (cats : Registry) (c : Str) : Str :=
  match lookupCat cats c with
  | some info => info.suggested_name
  | none => c

/-- The expression `category_info.get('description', '')`. -/
def descriptionOf (cats : Registry) (c : Str) : Str :=
  match lookupCat cats c with
  | some info => info.description
  | none => []

/-- One record of a category summary's `playlist_details`. -/
structure PlaylistDetail where
  title : Str
  video_count : Nat
  confidence : ℚ
  id : Str
deriving DecidableEq

/-- One value of the plan's `categories` mapping. -/
structure CategorySummary where
  suggested_name : Str
  description : Str
  playlists : Nat
  total_videos : Nat
  playlist_details : List PlaylistDetail
deriving DecidableEq

/-- One entry of `plan['merge_suggestions']`. -/
structure MergeSuggestion where
  category : Str
  target_name : Str
  playlists_to_merge : List Str
  total_videos : Nat
deriving DecidableEq

/-- One entry of `plan['rename_suggestions']`. -/
structure RenameSuggestion where
  current_name : Str
  suggested_name : Str
  category : Str
  id : Str
deriving DecidableEq

/-- One entry of `plan['delete_suggestions']`. -/
structure DeleteSuggestion where
  title : Str
  video_count : Nat
  reason : Str
  id : Str
deriving DecidableEq

/-- The plan dict returned by `generate_reorganization_plan`; `categories`
is an insertion-ordered mapping, kept as an association list. -/
structure Plan where
  timestamp : Str
  original_count : Nat
  categories : List (Str × CategorySummary)
  merge_suggestions : List MergeSuggestion
  rename_suggestions : List RenameSuggestion
  delete_suggestions : List DeleteSuggestion
deriving DecidableEq

/-- `sum(p['video_count'] for p in playlists)`. -/
def infoVidSum (ps : List PlaylistInfo) : Nat := (ps.map (·.video_count)).sum

/-- One `playlist_details` record, with the confidence rounded to two
decimals as `round(p['confidence'], 2)`. -/
def mkDetail (p : PlaylistInfo) : PlaylistDetail :=
  { title := p.title
    video_count := p.video_count
    confidence := round2 p.confidence
    id := p.id }

/-- The `plan['categories'][category]` summary for one group. -/
def mkSummary (cats : Registry) (c : Str) (ps : List PlaylistInfo) : CategorySummary :=
  { suggested_name := suggestedNameOf cats c
    description := descriptionOf cats c
    playlists := ps.length
    total_videos := infoVidSum ps
    playlist_details := ps.map mkDetail }

/-- The merge suggestion emitted for a group with more than one member. -/
def mkMerge (cats : Registry) (c : Str) (ps : List PlaylistInfo) : MergeSuggestion :=
  { category := c
    target_name := suggestedNameOf cats c
    playlists_to_merge := ps.map (·.title)
    total_videos := infoVidSum ps }

/-- The `elif len(playlists) == 1` branch: a rename suggestion when the
single member's title differs from the suggested name, nothing otherwise. -/
def renameFor (cats : Registry) (c : Str) (ps : List PlaylistInfo) : Option RenameSuggestion :=
  match ps with
  | [p] =>
    if p.title ≠ suggestedNameOf cats c then
      some { current_name := p.title
             suggested_name := suggestedNameOf cats c
             category := c
             id := p.id }
    else none
  | _ => none

/-- The delete suggestion for an uncategorized playlist with at most one
video; the reason string is the literal from the source. -/
def mkDelete (p : PlaylistInfo) : DeleteSuggestion :=
  { title := p.title
    video_count := p.video_count
    reason := "视频数量过少".toList
    id := p.id }

/-- The method `generate_reorganization_plan`.  The source's single loop
over `categorized.items()` appends to the four independent result lists;
each list is therefore the in-order concatenation of the per-entry
contributions, written here as one comprehension per list.  The loop skips
the `"Uncategorized"` key (`continue`), and the trailing block turns every
uncategorized playlist with at most one video into a delete suggestion.
The timestamp (`datetime.now().isoformat()`) is passed in explicitly. -/
def generate_reorganization_plan (cats : Registry) (timestamp : Str)
    (d : PlaylistData) : Plan :=
  let categorized := categorize_playlists cats d
  let entries := categorized.filter (fun e => e.1 ≠ uncategorized)
  { timestamp := timestamp
    original_count := d.total_playlists
    categories := entries.map (fun e => (e.1, mkSummary cats e.1 e.2))
    merge_suggestions :=
      (entries.filter (fun e => 1 < e.2.length)).map (fun e => mkMerge cats e.1 e.2)
    rename_suggestions := entries.filterMap (fun e => renameFor cats e.1 e.2)
    delete_suggestions :=
      ((groupOf categorized uncategorized).filter (fun p => p.video_count ≤ 1)).map
        mkDelete }

/-- The raw score of a named category on a playlist (0 for an unknown key),
read off through registry lookup. -/
def rawScoreOf (cats : Registry) (p : Playlist) (c : Str) : Nat :=
  match lookupCat cats c with
  | some info => rawScore info (buckets p).1 (buckets p).2.1 (buckets p).2.2
  | none => 0

/-- The concatenation of the playlist's title, description, and the
concatenated titles and descriptions of its contained videos, with the
source's single-space separators but before lowercasing. -/
def allText (p : Playlist) : Str :=
  p.title ++ [' '] ++ p.description ++ [' '] ++ videoContent p.videos

/-- The spec's `word_count_of_all_text`: the whitespace-token count of the
concatenation of title, description and body text. -/
def word_count_of_all_text (p : Playlist) : Nat := wordCount (allText p)

/-- The maximal raw score over the registry, `max(category_scores.values())`
(0 for an empty registry). -/
def maxRawScore (cats : Registry) (p : Playlist) : Nat :=
  match listMax (categoryScores cats p) with
  | some m => m
  | none => 0

/-- Concrete playlist: no keyword of any category occurs in it. -/
def emptyPlaylist : Playlist :=
  { id := [], title := [], description := [], video_count := 0, videos := [] }

/-- Concrete playlist whose title contains the keyword `"ai"`. -/
def pC2 : Playlist :=
  { id := "w2".toList, title := "ai coding".toList, description := [],
    video_count := 0, videos := [] }

/-- Concrete Gaming playlist, first member of the witness snapshot `dC5`. -/
def pG1 : Playlist :=
  { id := "g1".toList, title := "game a".toList, description := [],
    video_count := 2, videos := [] }

/-- Concrete Gaming playlist, second member of the witness snapshot `dC5`. -/
def pG2 : Playlist :=
  { id := "g2".toList, title := "game b".toList, description := [],
    video_count := 3, videos := [] }

/-- Concrete snapshot with two playlists that both win `"Gaming"`. -/
def dC5 : PlaylistData := { total_playlists := 2, playlists := [pG1, pG2] }

/-- Concrete playlist matching no keyword and holding no videos. -/
def pMisc : Playlist :=
  { id := "u1".toList, title := "misc".toList, description := [],
    video_count := 0, videos := [] }

/-- Concrete snapshot whose single playlist stays uncategorized. -/
def dC6 : PlaylistData := { total_playlists := 1, playlists := [pMisc] }

/-- Concrete playlist whose title holds two overlapping occurrences of the
registry keyword `"gaming"`. -/
def pGamingOverlap : Playlist :=
  { id := "ov".toList, title := "gamingaming".toList, description := [],
    video_count := 0, videos := [] }

/-- A nonempty score table has a champion. -/
lemma argmaxFirst_of_ne_nil {l : List (Str × Nat)} (h : l ≠ []) :
    ∃ b, argmaxFirst l = some b := by
  cases l with
  | nil => exact absurd rfl h
  | cons x xs => exact ⟨_, rfl⟩

/-- The champion of the `max`-with-key fold is the seed or a list element. -/
lemma foldl_champion_mem (xs : List (Str × Nat)) (a : Str × Nat) :
    xs.foldl (fun best y => if y.2 > best.2 then y else best) a = a ∨
    xs.foldl (fun best y => if y.2 > best.2 then y else best) a ∈ xs := by
  induction xs generalizing a with
  | nil => left; rfl
  | cons y ys ih =>
    simp only [List.foldl_cons]
    rcases ih (if y.2 > a.2 then y else a) with h | h
    · rw [h]
      by_cases hy : y.2 > a.2
      · right; simp [hy]
      · left; simp [hy]
    · right; exact List.mem_cons_of_mem _ h

/-- The winner returned by `argmaxFirst` is an element of the table. -/
lemma argmaxFirst_mem {l : List (Str × Nat)} {b : Str × Nat}
    (h : argmaxFirst l = some b) : b ∈ l := by
  cases l with
  | nil => simp [argmaxFirst] at h
  | cons x xs =>
    simp only [argmaxFirst, Option.some.injEq] at h
    rcases foldl_champion_mem xs x with h' | h'
    · rw [h] at h'; rw [h']; exact List.mem_cons_self _ _
    · rw [h] at h'; exact List.mem_cons_of_mem _ h'

/-- The champion's value is the `max`-fold of the values. -/
lemma foldl_champion_snd (xs : List (Str × Nat)) (a : Str × Nat) :
    (xs.foldl (fun best y => if y.2 > best.2 then y else best) a).2 =
      (xs.map Prod.snd).foldl max a.2 := by
  induction xs generalizing a with
  | nil => rfl
  | cons y ys ih =>
    simp only [List.foldl_cons, List.map_cons]
    rw [ih]
    congr 1
    by_cases hy : y.2 > a.2
    · simp [hy, Nat.max_eq_right (Nat.le_of_lt hy)]
    · simp [hy, Nat.max_eq_left (Nat.le_of_not_lt hy)]

/-- `argmaxFirst` and `listMax` agree: the winner's value is the maximum. -/
lemma argmaxFirst_listMax {l : List (Str × Nat)} {b : Str × Nat}
    (h : argmaxFirst l = some b) : listMax l = some b.2 := by
  cases l with
  | nil => simp [argmaxFirst] at h
  | cons x xs =>
    simp only [argmaxFirst, Option.some.injEq] at h
    simp only [listMax, Option.some.injEq]
    rw [← h, foldl_champion_snd]

/-- Branch form of `analyze_playlist_content` under a known champion. -/
lemma analyze_eq {cats : Registry} {p : Playlist} {b : Str × Nat}
    (h : argmaxFirst (categoryScores cats p) = some b) :
    analyze_playlist_content cats p =
      if b.2 = 0 then (uncategorized, 0)
      else (b.1, min ((b.2 : ℚ) / max ((wordCount (allContent p) : ℚ) / 10) 1) 1) := by
  have hm := argmaxFirst_listMax h
  simp only [analyze_playlist_content]
  rw [h, hm]

/-- With unique keys, lookup finds the member entry. -/
lemma lookupCat_of_mem {cats : Registry} {c : Str} {info : CategoryInfo}
    (hnd : (cats.map Prod.fst).Nodup) (hm : (c, info) ∈ cats) :
    lookupCat cats c = some info := by
  induction cats with
  | nil => simp at hm
  | cons e rest ih =>
    obtain ⟨c₀, i₀⟩ := e
    simp only [List.map_cons, List.nodup_cons] at hnd
    rcases List.mem_cons.1 hm with heq | hm'
    · rw [Prod.mk.injEq] at heq
      obtain ⟨rfl, rfl⟩ := heq
      simp [lookupCat]
    · have hne : ¬ c₀ = c := by
        intro hcc
        subst hcc
        exact hnd.1 (List.mem_map_of_mem Prod.fst hm')
      simp [lookupCat, hne, ih hnd.2 hm']

/-- Every score-table entry comes from a registry entry. -/
lemma categoryScores_mem {cats : Registry} {p : Playlist} {b : Str × Nat}
    (hb : b ∈ categoryScores cats p) :
    ∃ e ∈ cats, e.1 = b.1 ∧
      rawScore e.2 (buckets p).1 (buckets p).2.1 (buckets p).2.2 = b.2 := by
  simp only [categoryScores, List.mem_map] at hb
  obtain ⟨e, he, heq⟩ := hb
  exact ⟨e, he, by rw [← heq], by rw [← heq]⟩

/-- With unique keys, the winner's looked-up raw score is its table value. -/
lemma rawScoreOf_winner {cats : Registry} {p : Playlist} {b : Str × Nat}
    (hnd : (cats.map Prod.fst).Nodup)
    (hb : b ∈ categoryScores cats p) :
    rawScoreOf cats p b.1 = b.2 := by
  obtain ⟨e, he, h1, h2⟩ := categoryScores_mem hb
  have hmm : (b.1, e.2) ∈ cats := by
    rw [← h1]
    simpa using he
  have hl : lookupCat cats b.1 = some e.2 := lookupCat_of_mem hnd hmm
  simp [rawScoreOf, hl, h2]

/-- The organizer registry has pairwise distinct category keys. -/
lemma org_nodup_keys : (organizerCategories.map Prod.fst).Nodup := by decide

/-- The organizer registry yields a nonempty score table. -/
lemma categoryScores_org_ne_nil (p : Playlist) :
    categoryScores organizerCategories p ≠ [] := by
  simp [categoryScores, organizerCategories]

/-- No organizer registry key is the `"Uncategorized"` sentinel. -/
lemma org_keys_ne_uncat : ∀ c ∈ organizerCategories.map Prod.fst, c ≠ uncategorized := by
  decide

/-- A valid code point below the surrogate range round-trips through
`Char.ofNat`. -/
lemma char_toNat_ofNat_small (n : Nat) (h : n < 55296) : (Char.ofNat n).toNat = n := by
  unfold Char.ofNat
  rw [dif_pos (Or.inl h)]
  rfl

/-- ASCII case folding maps no character into or out of whitespace. -/
lemma toLower_isWhitespace (c : Char) : c.toLower.isWhitespace = c.isWhitespace := by
  unfold Char.toLower
  by_cases h : c.toNat ≥ 65 ∧ c.toNat ≤ 90
  · rw [if_pos h]
    have hup : (Char.ofNat (c.toNat + 32)).toNat = c.toNat + 32 :=
      char_toNat_ofNat_small _ (by omega)
    have hlow : (Char.ofNat (c.toNat + 32)).isWhitespace = false := by
      simp only [Char.isWhitespace]
      have h1 : Char.ofNat (c.toNat + 32) ≠ ' ' := by
        intro he
        have := congrArg Char.toNat he
        rw [hup] at this
        have hsp : (' ' : Char).toNat = 32 := rfl
        omega
      have h2 : Char.ofNat (c.toNat + 32) ≠ '\t' := by
        intro he
        have := congrArg Char.toNat he
        rw [hup] at this
        have hsp : ('\t' : Char).toNat = 9 := rfl
        omega
      have h3 : Char.ofNat (c.toNat + 32) ≠ '\r' := by
        intro he
        have := congrArg Char.toNat he
        rw [hup] at this
        have hsp : ('\r' : Char).toNat = 13 := rfl
        omega
      have h4 : Char.ofNat (c.toNat + 32) ≠ '\n' := by
        intro he
        have := congrArg Char.toNat he
        rw [hup] at this
        have hsp : ('\n' : Char).toNat = 10 := rfl
        omega
      simp [h1, h2, h3, h4]
    have hcw : c.isWhitespace = false := by
      simp only [Char.isWhitespace]
      have h1 : c ≠ ' ' := by
        intro he
        subst he
        have hsp : (' ' : Char).toNat = 32 := rfl
        omega
      have h2 : c ≠ '\t' := by
        intro he
        subst he
        have hsp : ('\t' : Char).toNat = 9 := rfl
        omega
      have h3 : c ≠ '\r' := by
        intro he
        subst he
        have hsp : ('\r' : Char).toNat = 13 := rfl
        omega
      have h4 : c ≠ '\n' := by
        intro he
        subst he
        have hsp : ('\n' : Char).toNat = 10 := rfl
        omega
      simp [h1, h2, h3, h4]
    rw [hlow, hcw]
  · rw [if_neg h]

/-- Tokenization is invariant under ASCII case folding. -/
lemma wordCountAux_toLower (s : Str) (b : Bool) :
    wordCountAux (s.map Char.toLower) b = wordCountAux s b := by
  induction s generalizing b with
  | nil => rfl
  | cons c rest ih =>
    simp only [List.map_cons, wordCountAux, toLower_isWhitespace]
    by_cases hw : c.isWhitespace
    · simp [hw, ih]
    · cases b
      · simp [hw, ih]
      · simp [hw, ih]

/-- The code's combined lowered text is the lowering of the raw
concatenation (the single-space separators are fixed by case folding). -/
lemma allContent_eq_lower (p : Playlist) :
    allContent p = (allText p).map Char.toLower := by
  have hsp : Char.toLower ' ' = ' ' := rfl
  simp [allContent, allText, buckets, lowerStr, List.map_append, hsp]

/-- The code's token count of `all_content` is the spec's
`word_count_of_all_text`. -/
lemma wordCount_allContent (p : Playlist) :
    wordCount (allContent p) = word_count_of_all_text p := by
  rw [allContent_eq_lower]
  exact wordCountAux_toLower _ false

/-- Claim C1: for every playlist, if every category's raw score is zero,
`analyze_playlist_content` returns exactly `("Uncategorized", 0.0)`; and a
category whose raw score is 0 is never returned as the winner. -/
theorem claim_C1_zero_scores_give_uncategorized (p : Playlist) :
    ((∀ e ∈ organizerCategories,
        rawScore e.2 (buckets p).1 (buckets p).2.1 (buckets p).2.2 = 0) →
      analyze_playlist_content organizerCategories p = (uncategorized, 0)) ∧
    (∀ c conf, analyze_playlist_content organizerCategories p = (c, conf) →
      c ≠ uncategorized → 0 < rawScoreOf organizerCategories p c) := by
  obtain ⟨b, hb⟩ := argmaxFirst_of_ne_nil (categoryScores_org_ne_nil p)
  have hmem : b ∈ categoryScores organizerCategories p := argmaxFirst_mem hb
  have heq := analyze_eq hb
  constructor
  · intro hz
    have hb2 : b.2 = 0 := by
      obtain ⟨e, he, h1, h2⟩ := categoryScores_mem hmem
      rw [← h2]
      exact hz e he
    rw [heq, if_pos hb2]
  · intro c conf hres hc
    by_cases hb2 : b.2 = 0
    · rw [heq, if_pos hb2] at hres
      rw [Prod.mk.injEq] at hres
      exact absurd hres.1.symm hc
    · rw [heq, if_neg hb2] at hres
      rw [Prod.mk.injEq] at hres
      rw [← hres.1]
      rw [rawScoreOf_winner org_nodup_keys hmem]
      omega

/-- Claim C1 witness: on a concrete keyword-free playlist every raw score is
zero and the analyzer returns the sentinel; on a concrete Gaming playlist
the non-sentinel winner has a positive raw score. -/
theorem claim_C1_zero_scores_give_uncategorized_witness :
    analyze_playlist_content organizerCategories emptyPlaylist = (uncategorized, 0) ∧
    0 < rawScoreOf organizerCategories pG1 ("Gaming".toList) :=
  ⟨(claim_C1_zero_scores_give_uncategorized emptyPlaylist).1 (by decide),
   (claim_C1_zero_scores_give_uncategorized pG1).2 ("Gaming".toList)
     (analyze_playlist_content organizerCategories pG1).2
     (Prod.ext (by decide) rfl) (by decide)⟩

/-- Claim C2: for every playlist whose winning raw score is non-zero, the
returned confidence is `min(score / max(word_count_of_all_text / 10, 1), 1)`,
where `word_count_of_all_text` counts the whitespace tokens of the
concatenated title, description and video texts. -/
theorem claim_C2_confidence_formula (p : Playlist)
    (h : maxRawScore organizerCategories p ≠ 0) :
    (analyze_playlist_content organizerCategories p).2 =
      min ((maxRawScore organizerCategories p : ℚ) /
            max ((word_count_of_all_text p : ℚ) / 10) 1) 1 := by
  obtain ⟨b, hb⟩ := argmaxFirst_of_ne_nil (categoryScores_org_ne_nil p)
  have hm := argmaxFirst_listMax hb
  have hmax : maxRawScore organizerCategories p = b.2 := by
    simp [maxRawScore, hm]
  rw [hmax] at h ⊢
  rw [analyze_eq hb, if_neg h, wordCount_allContent]

/-- Claim C2 witness: the formula instantiated on a concrete playlist whose
winning raw score is non-zero. -/
theorem claim_C2_confidence_formula_witness :
    (analyze_playlist_content organizerCategories pC2).2 =
      min ((maxRawScore organizerCategories pC2 : ℚ) /
            max ((word_count_of_all_text pC2 : ℚ) / 10) 1) 1 :=
  claim_C2_confidence_formula pC2 (by decide)

/-- Claim C3: for every input playlist (missing fields being the empty
defaults of the record model), the confidence lies in `[0, 1]`. -/
theorem claim_C3_confidence_in_unit_interval (p : Playlist) :
    0 ≤ (analyze_playlist_content organizerCategories p).2 ∧
    (analyze_playlist_content organizerCategories p).2 ≤ 1 := by
  obtain ⟨b, hb⟩ := argmaxFirst_of_ne_nil (categoryScores_org_ne_nil p)
  rw [analyze_eq hb]
  by_cases hb2 : b.2 = 0
  · rw [if_pos hb2]
    constructor <;> norm_num
  · rw [if_neg hb2]
    constructor
    · apply le_min
      · apply div_nonneg (by positivity)
        exact le_trans zero_le_one (le_max_right _ 1)
      · norm_num
    · exact min_le_right _ 1

/-- Claim C10: the analyzer's confidence is strictly positive exactly when
the returned category is not `"Uncategorized"`, and the sentinel always
carries confidence exactly 0. -/
theorem claim_C10_positive_confidence_iff_categorized (p : Playlist) :
    (0 < (analyze_playlist_content organizerCategories p).2 ↔
      (analyze_playlist_content organizerCategories p).1 ≠ uncategorized) ∧
    ((analyze_playlist_content organizerCategories p).1 = uncategorized →
      (analyze_playlist_content organizerCategories p).2 = 0) := by
  obtain ⟨b, hb⟩ := argmaxFirst_of_ne_nil (categoryScores_org_ne_nil p)
  have hmem : b ∈ categoryScores organizerCategories p := argmaxFirst_mem hb
  rw [analyze_eq hb]
  by_cases hb2 : b.2 = 0
  · rw [if_pos hb2]
    simp
  · rw [if_neg hb2]
    have hb1 : b.1 ≠ uncategorized := by
      obtain ⟨e, he, h1, _⟩ := categoryScores_mem hmem
      rw [← h1]
      exact org_keys_ne_uncat e.1 (List.mem_map_of_mem Prod.fst he)
    have hpos : 0 < min ((b.2 : ℚ) / max ((wordCount (allContent p) : ℚ) / 10) 1) 1 := by
      apply lt_min _ one_pos
      apply div_pos
      · exact_mod_cast Nat.pos_of_ne_zero hb2
      · exact lt_of_lt_of_le one_pos (le_max_right _ 1)
    exact ⟨iff_of_true hpos hb1, fun hcontra => absurd hcontra hb1⟩

/-- Appending to the grouping dict extends exactly the target key's list. -/
lemma groupOf_addToGroup (g : Grouping) (i : PlaylistInfo) (c : Str) :
    groupOf (addToGroup g i) c =
      if i.category = c then groupOf g c ++ [i] else groupOf g c := by
  induction g with
  | nil =>
    by_cases h : i.category = c <;> simp [addToGroup, groupOf, h]
  | cons e rest ih =>
    obtain ⟨c₀, l₀⟩ := e
    by_cases h0 : c₀ = i.category
    · subst h0
      simp only [addToGroup, if_pos rfl]
      by_cases hc : i.category = c <;> simp [groupOf, hc]
    · simp only [addToGroup, if_neg h0]
      by_cases hc : c₀ = c
      · subst hc
        have hic : ¬ i.category = c₀ := fun hh => h0 hh.symm
        simp [groupOf, hic]
      · simp [groupOf, hc, ih]

/-- Appending to the grouping dict preserves the keys, or adds the new key
at the end. -/
lemma keys_addToGroup (g : Grouping) (i : PlaylistInfo) :
    (addToGroup g i).map Prod.fst =
      if i.category ∈ g.map Prod.fst then g.map Prod.fst
      else g.map Prod.fst ++ [i.category] := by
  induction g with
  | nil => simp [addToGroup]
  | cons e rest ih =>
    obtain ⟨c₀, l₀⟩ := e
    by_cases h0 : c₀ = i.category
    · subst h0
      simp [addToGroup]
    · have hne : ¬ i.category = c₀ := fun hh => h0 hh.symm
      simp only [addToGroup, if_neg h0, List.map_cons]
      rw [ih]
      by_cases hmem : i.category ∈ rest.map Prod.fst <;>
        simp [hmem, hne]

/-- Appending to the grouping dict keeps the keys pairwise distinct. -/
lemma nodup_addToGroup (g : Grouping) (i : PlaylistInfo)
    (h : (g.map Prod.fst).Nodup) : ((addToGroup g i).map Prod.fst).Nodup := by
  rw [keys_addToGroup]
  by_cases hmem : i.category ∈ g.map Prod.fst
  · simpa [hmem] using h
  · simp only [if_neg hmem]
    rw [List.nodup_append]
    refine ⟨h, List.nodup_singleton _, ?_⟩
    intro a ha hb
    simp only [List.mem_singleton] at hb
    subst hb
    exact hmem ha

/-- A grouped-list statistic that is additive under append grows by the
new record's weight when the record is filed. -/
lemma sum_addToGroup (w : PlaylistInfo → Nat) (f : List PlaylistInfo → Nat)
    (h0 : f [] = 0) (hf : ∀ l i, f (l ++ [i]) = f l + w i)
    (g : Grouping) (i : PlaylistInfo) :
    ((addToGroup g i).map (fun e => f e.2)).sum =
      (g.map (fun e => f e.2)).sum + w i := by
  induction g with
  | nil =>
    have : f [i] = w i := by
      have := hf [] i
      simpa [h0] using this
    simp [addToGroup, this]
  | cons e rest ih =>
    obtain ⟨c₀, l₀⟩ := e
    by_cases hc : c₀ = i.category
    · subst hc
      simp [addToGroup, hf, Nat.add_assoc, Nat.add_comm, Nat.add_left_comm]
    · simp [addToGroup, hc, ih, Nat.add_assoc]

/-- Summing one over a list counts its length. -/
lemma sum_map_one {α : Type} (l : List α) :
    (l.map (fun _ => (1 : Nat))).sum = l.length := by
  induction l with
  | nil => rfl
  | cons a l ih => simp [ih, Nat.add_comm]

/-- `categorize_playlists` is the grouping fold over the info records. -/
lemma categorize_eq (cats : Registry) (d : PlaylistData) :
    categorize_playlists cats d =
      (d.playlists.map (mkInfo cats)).foldl addToGroup [] := by
  unfold categorize_playlists
  rw [List.foldl_map]

/-- After folding records into the dict, each key's group is the in-order
filter of the processed records by that key. -/
lemma foldl_addToGroup_groupOf (is : List PlaylistInfo) (g : Grouping) (c : Str) :
    groupOf (is.foldl addToGroup g) c =
      groupOf g c ++ is.filter (fun i => i.category = c) := by
  induction is generalizing g with
  | nil => simp
  | cons i rest ih =>
    simp only [List.foldl_cons]
    rw [ih, groupOf_addToGroup]
    by_cases hc : i.category = c
    · simp [List.filter_cons, hc]
    · simp [List.filter_cons, hc]

/-- The grouping fold keeps keys pairwise distinct. -/
lemma foldl_addToGroup_nodup (is : List PlaylistInfo) (g : Grouping)
    (h : (g.map Prod.fst).Nodup) :
    ((is.foldl addToGroup g).map Prod.fst).Nodup := by
  induction is generalizing g with
  | nil => exact h
  | cons i rest ih =>
    simp only [List.foldl_cons]
    exact ih _ (nodup_addToGroup _ _ h)

/-- A per-group additive statistic of the grouping fold totals the weights
of the processed records. -/
lemma foldl_addToGroup_sum (w : PlaylistInfo → Nat) (f : List PlaylistInfo → Nat)
    (h0 : f [] = 0) (hf : ∀ l i, f (l ++ [i]) = f l + w i)
    (is : List PlaylistInfo) (g : Grouping) :
    ((is.foldl addToGroup g).map (fun e => f e.2)).sum =
      (g.map (fun e => f e.2)).sum + (is.map w).sum := by
  induction is generalizing g with
  | nil => simp
  | cons i rest ih =>
    simp only [List.foldl_cons, List.map_cons, List.sum_cons]
    rw [ih, sum_addToGroup w f h0 hf]
    omega

/-- Claim C4: categorization is total and order-preserving — every group is
the in-order filter of the analyzed snapshot by its key, the group sizes
add up to the snapshot size (no playlist dropped or duplicated), and the
group keys are pairwise distinct (each playlist lands in exactly one
group). -/
theorem claim_C4_grouping_total_and_ordered (d : PlaylistData) :
    (∀ c, groupOf (categorize_playlists organizerCategories d) c =
      (d.playlists.map (mkInfo organizerCategories)).filter
        (fun i => i.category = c)) ∧
    ((categorize_playlists organizerCategories d).map (fun e => e.2.length)).sum =
      d.playlists.length ∧
    ((categorize_playlists organizerCategories d).map Prod.fst).Nodup := by
  rw [categorize_eq]
  refine ⟨?_, ?_, ?_⟩
  · intro c
    rw [foldl_addToGroup_groupOf]
    simp [groupOf]
  · rw [foldl_addToGroup_sum (fun _ => 1) List.length rfl (by simp)]
    have hcomp : ((fun _ => (1 : Nat)) ∘ mkInfo organizerCategories) =
        (fun _ => (1 : Nat)) := rfl
    simp only [List.map_nil, List.sum_nil, Nat.zero_add, List.map_map, hcomp]
    rw [sum_map_one]
  · exact foldl_addToGroup_nodup _ _ (by simp)

/-- Splitting a sum over a list by a Boolean predicate on its elements. -/
lemma sum_filter_split {α : Type} (p : α → Bool) (f : α → Nat) (l : List α) :
    (l.map f).sum =
      ((l.filter p).map f).sum + ((l.filter (fun a => !(p a))).map f).sum := by
  induction l with
  | nil => rfl
  | cons a l ih =>
    by_cases hp : p a <;> simp [List.filter_cons, hp, ih] <;> omega

/-- Filtering for an absent key yields nothing. -/
lemma filter_key_nil {g : Grouping} {c : Str} (h : c ∉ g.map Prod.fst) :
    g.filter (fun e => e.1 = c) = [] := by
  induction g with
  | nil => rfl
  | cons e rest ih =>
    simp only [List.map_cons, List.mem_cons] at h
    push_neg at h
    have h1 : ¬ e.1 = c := fun hh => h.1 hh.symm
    simp [List.filter_cons, h1, ih h.2]

/-- Accessing an absent key yields the empty group. -/
lemma groupOf_of_not_mem {g : Grouping} {c : Str} (h : c ∉ g.map Prod.fst) :
    groupOf g c = [] := by
  induction g with
  | nil => rfl
  | cons e rest ih =>
    simp only [List.map_cons, List.mem_cons] at h
    push_neg at h
    have h1 : ¬ e.1 = c := fun hh => h.1 hh.symm
    obtain ⟨c₀, l₀⟩ := e
    simp only [groupOf]
    rw [if_neg h1, ih h.2]

/-- With distinct keys, the video total of the entries filtered to one key
is the video total of that key's group. -/
lemma vidsum_filter_key {g : Grouping} (hnd : (g.map Prod.fst).Nodup) (c : Str) :
    ((g.filter (fun e => e.1 = c)).map (fun e => infoVidSum e.2)).sum =
      infoVidSum (groupOf g c) := by
  induction g with
  | nil => simp [groupOf, infoVidSum]
  | cons e rest ih =>
    obtain ⟨c₀, l₀⟩ := e
    simp only [List.map_cons, List.nodup_cons] at hnd
    by_cases hc : c₀ = c
    · subst hc
      have hrest : c₀ ∉ rest.map Prod.fst := hnd.1
      simp only [List.filter_cons]
      rw [filter_key_nil hrest]
      simp [groupOf]
    · simp only [List.filter_cons]
      simp only [groupOf]
      rw [if_neg hc]
      simp only [decide_eq_true_eq]
      rw [if_neg hc]
      exact ih hnd.2

/-- Claim C7: video-count conservation — the `total_videos` fields of all
category summaries plus the video counts of the `"Uncategorized"` group add
up to the total video count of the input snapshot. -/
theorem claim_C7_video_count_conservation (ts : Str) (d : PlaylistData) :
    ((generate_reorganization_plan organizerCategories ts d).categories.map
        (fun e => e.2.total_videos)).sum +
      infoVidSum (groupOf (categorize_playlists organizerCategories d) uncategorized) =
    (d.playlists.map (fun p => p.video_count)).sum := by
  have hnd : ((categorize_playlists organizerCategories d).map Prod.fst).Nodup := by
    rw [categorize_eq]
    exact foldl_addToGroup_nodup _ _ (by simp)
  have htot :
      ((categorize_playlists organizerCategories d).map (fun e => infoVidSum e.2)).sum =
        (d.playlists.map (fun p => p.video_count)).sum := by
    rw [categorize_eq]
    rw [foldl_addToGroup_sum (fun i => i.video_count) infoVidSum (by rfl)
      (by intro l i; simp [infoVidSum])]
    have hcomp : ((fun i : PlaylistInfo => i.video_count) ∘ mkInfo organizerCategories) =
        (fun p : Playlist => p.video_count) := rfl
    simp only [List.map_nil, List.sum_nil, Nat.zero_add, List.map_map, hcomp]
  have hsplit := sum_filter_split (fun e : Str × List PlaylistInfo =>
    decide ¬ e.1 = uncategorized) (fun e => infoVidSum e.2)
    (categorize_playlists organizerCategories d)
  have hcompl :
      ((categorize_playlists organizerCategories d).filter
        (fun e => !(decide ¬ e.1 = uncategorized))) =
      ((categorize_playlists organizerCategories d).filter
        (fun e => e.1 = uncategorized)) := by
    simp only [decide_not, Bool.not_not]
  rw [hcompl] at hsplit
  have hu := vidsum_filter_key hnd uncategorized
  have hcat :
      ((generate_reorganization_plan organizerCategories ts d).categories.map
        (fun e => e.2.total_videos)).sum =
      (((categorize_playlists organizerCategories d).filter
          (fun e => decide ¬ e.1 = uncategorized)).map (fun e => infoVidSum e.2)).sum := by
    simp only [generate_reorganization_plan, List.map_map]
    rfl
  rw [hcat, ← hu, ← htot, hsplit]

/-- A rename suggestion carries the category it was emitted for. -/
lemma renameFor_category {cats : Registry} {c : Str} {ps : List PlaylistInfo}
    {s : RenameSuggestion} (h : renameFor cats c ps = some s) : s.category = c := by
  cases ps with
  | nil => simp [renameFor] at h
  | cons p tail =>
    cases tail with
    | cons q r => simp [renameFor] at h
    | nil =>
      simp only [renameFor] at h
      split at h
      · rw [Option.some.injEq] at h
        rw [← h]
      · exact absurd h (by simp)

/-- Two filters over the same list commute. -/
lemma filter_swap {α : Type} (p q : α → Bool) (l : List α) :
    (l.filter p).filter q = (l.filter q).filter p := by
  induction l with
  | nil => rfl
  | cons a l ih =>
    by_cases hp : p a <;> by_cases hq : q a <;>
      simp [List.filter_cons, hp, hq, ih]

/-- With distinct keys, filtering to a member key isolates its entry. -/
lemma filter_key_eq {g : Grouping} {c : Str} {ps : List PlaylistInfo}
    (hnd : (g.map Prod.fst).Nodup) (hm : (c, ps) ∈ g) :
    g.filter (fun e => e.1 = c) = [(c, ps)] := by
  induction g with
  | nil => simp at hm
  | cons e rest ih =>
    obtain ⟨c₀, l₀⟩ := e
    simp only [List.map_cons, List.nodup_cons] at hnd
    rcases List.mem_cons.1 hm with heq | hm'
    · rw [Prod.mk.injEq] at heq
      obtain ⟨rfl, rfl⟩ := heq
      simp only [List.filter_cons, decide_eq_true_eq, if_pos rfl]
      rw [filter_key_nil hnd.1]
      simp
    · have hck : c ∈ rest.map Prod.fst := by
        have : (c, ps) ∈ rest := hm'
        exact List.mem_map_of_mem Prod.fst this
      have hne : ¬ c₀ = c := fun hh => hnd.1 (hh ▸ hck)
      simp only [List.filter_cons, decide_eq_true_eq, if_neg hne]
      exact ih hnd.2 hm'

/-- Filtering the emitted rename suggestions to one category equals
emitting over the entries of that category only. -/
lemma filterMap_rename_filter (cats : Registry) (c : Str) (l : Grouping) :
    (l.filterMap (fun e => renameFor cats e.1 e.2)).filter (fun s => s.category = c) =
      (l.filter (fun e => e.1 = c)).filterMap (fun e => renameFor cats e.1 e.2) := by
  induction l with
  | nil => rfl
  | cons e rest ih =>
    cases hre : renameFor cats e.1 e.2 with
    | none =>
      simp only [List.filterMap_cons, hre, List.filter_cons]
      by_cases hc : e.1 = c
      · simp only [decide_eq_true_eq, if_pos hc, List.filterMap_cons, hre]
        exact ih
      · simp only [decide_eq_true_eq, if_neg hc]
        exact ih
    | some s =>
      have hcat := renameFor_category hre
      simp only [List.filterMap_cons, hre, List.filter_cons]
      by_cases hc : e.1 = c
      · have hsc : s.category = c := by rw [hcat, hc]
        simp only [decide_eq_true_eq, if_pos hc, if_pos hsc, List.filterMap_cons, hre]
        rw [ih]
      · have hsc : ¬ s.category = c := by rw [hcat]; exact hc
        simp only [decide_eq_true_eq, if_neg hc, if_neg hsc]
        exact ih

/-- Claim C5: per category (other than the sentinel), a group with more
than one member yields exactly one merge and no rename; a singleton group
yields exactly one rename when its title differs from the suggested name
and nothing otherwise; merge and rename are never emitted together. -/
theorem claim_C5_merge_rename_exclusive (ts : Str) (d : PlaylistData)
    (c : Str) (ps : List PlaylistInfo)
    (hm : (c, ps) ∈ categorize_playlists organizerCategories d)
    (hc : c ≠ uncategorized) :
    (((generate_reorganization_plan organizerCategories ts d).merge_suggestions.filter
        (fun s => s.category = c)).length = if 1 < ps.length then 1 else 0) ∧
    (((generate_reorganization_plan organizerCategories ts d).rename_suggestions.filter
        (fun s => s.category = c)).length =
      match ps with
      | [p] => if p.title ≠ suggestedNameOf organizerCategories c then 1 else 0
      | _ => 0) ∧
    (((generate_reorganization_plan organizerCategories ts d).merge_suggestions.filter
        (fun s => s.category = c)) = [] ∨
     ((generate_reorganization_plan organizerCategories ts d).rename_suggestions.filter
        (fun s => s.category = c)) = []) := by
  have hnd : ((categorize_playlists organizerCategories d).map Prod.fst).Nodup := by
    rw [categorize_eq]
    exact foldl_addToGroup_nodup _ _ (by simp)
  have hent : (((categorize_playlists organizerCategories d).filter
      (fun e => e.1 ≠ uncategorized)).filter (fun e => e.1 = c)) = [(c, ps)] := by
    rw [filter_swap, filter_key_eq hnd hm]
    simp [List.filter_cons, hc]
  have hmerge : ((generate_reorganization_plan organizerCategories ts d).merge_suggestions.filter
      (fun s => s.category = c)) =
      ([(c, ps)].filter (fun e => 1 < e.2.length)).map
        (fun e => mkMerge organizerCategories e.1 e.2) := by
    simp only [generate_reorganization_plan]
    rw [List.filter_map]
    have hpred : ((fun s : MergeSuggestion => decide (s.category = c)) ∘
        (fun e : Str × List PlaylistInfo => mkMerge organizerCategories e.1 e.2)) =
        (fun e : Str × List PlaylistInfo => decide (e.1 = c)) := rfl
    rw [hpred, filter_swap, hent]
  have hrename : ((generate_reorganization_plan organizerCategories ts d).rename_suggestions.filter
      (fun s => s.category = c)) =
      [(c, ps)].filterMap (fun e => renameFor organizerCategories e.1 e.2) := by
    simp only [generate_reorganization_plan]
    rw [filterMap_rename_filter, hent]
  refine ⟨?_, ?_, ?_⟩
  · rw [hmerge]
    by_cases hl : 1 < ps.length
    · simp [List.filter_cons, hl]
    · simp [List.filter_cons, hl]
  · rw [hrename]
    cases ps with
    | nil => simp [renameFor]
    | cons p tail =>
      cases tail with
      | cons q r => simp [renameFor]
      | nil =>
        simp only [List.filterMap_cons, renameFor]
        by_cases ht : p.title ≠ suggestedNameOf organizerCategories c
        · simp [ht]
        · simp [ht]
  · by_cases hl : 1 < ps.length
    · right
      rw [hrename]
      cases ps with
      | nil => simp at hl
      | cons p tail =>
        cases tail with
        | nil => simp at hl
        | cons q r => simp [renameFor]
    · left
      rw [hmerge]
      simp [List.filter_cons, hl]

/-- A present key's group pairs with the key as a dict entry. -/
lemma groupOf_mem {g : Grouping} {c : Str} (h : c ∈ g.map Prod.fst) :
    (c, groupOf g c) ∈ g := by
  induction g with
  | nil => simp at h
  | cons e rest ih =>
    obtain ⟨c₀, l₀⟩ := e
    by_cases hc : c₀ = c
    · subst hc
      simp [groupOf]
    · simp only [List.map_cons, List.mem_cons] at h
      rcases h with h | h
      · exact absurd h.symm hc
      · simp only [groupOf]
        rw [if_neg hc]
        exact List.mem_cons_of_mem _ (ih h)

/-- Claim C5 witness: on a concrete snapshot whose two playlists both win
`"Gaming"`, the plan holds exactly one merge suggestion for that category. -/
theorem claim_C5_merge_rename_exclusive_witness :
    ((generate_reorganization_plan organizerCategories [] dC5).merge_suggestions.filter
        (fun s => s.category = "Gaming".toList)).length =
      if 1 < (groupOf (categorize_playlists organizerCategories dC5)
                ("Gaming".toList)).length then 1 else 0 :=
  (claim_C5_merge_rename_exclusive [] dC5 ("Gaming".toList)
    (groupOf (categorize_playlists organizerCategories dC5) ("Gaming".toList))
    (groupOf_mem (by decide)) (by decide)).1

/-- Claim C6: delete suggestions are exactly the uncategorized playlists
with at most one video — one suggestion per qualifying playlist, each with
the reason string, all originating from the `"Uncategorized"` group; larger
uncategorized playlists and categorized playlists receive no delete, merge,
rename or summary entry tied to the sentinel. -/
theorem claim_C6_uncategorized_delete_rule (ts : Str) (d : PlaylistData) :
    ((generate_reorganization_plan organizerCategories ts d).delete_suggestions.length =
      ((groupOf (categorize_playlists organizerCategories d) uncategorized).filter
        (fun i => i.video_count ≤ 1)).length) ∧
    (∀ s ∈ (generate_reorganization_plan organizerCategories ts d).delete_suggestions,
      s.video_count ≤ 1 ∧ s.reason = "视频数量过少".toList ∧
      ∃ i ∈ groupOf (categorize_playlists organizerCategories d) uncategorized,
        i.video_count ≤ 1 ∧ s = mkDelete i) ∧
    (∀ i ∈ groupOf (categorize_playlists organizerCategories d) uncategorized,
      i.video_count ≤ 1 →
        mkDelete i ∈
          (generate_reorganization_plan organizerCategories ts d).delete_suggestions) ∧
    (∀ s ∈ (generate_reorganization_plan organizerCategories ts d).merge_suggestions,
      s.category ≠ uncategorized) ∧
    (∀ s ∈ (generate_reorganization_plan organizerCategories ts d).rename_suggestions,
      s.category ≠ uncategorized) ∧
    (∀ e ∈ (generate_reorganization_plan organizerCategories ts d).categories,
      e.1 ≠ uncategorized) := by
  refine ⟨?_, ?_, ?_, ?_, ?_, ?_⟩
  · simp [generate_reorganization_plan]
  · intro s hs
    simp only [generate_reorganization_plan, List.mem_map, List.mem_filter,
      decide_eq_true_eq] at hs
    obtain ⟨i, ⟨hig, hvc⟩, rfl⟩ := hs
    exact ⟨hvc, rfl, i, hig, hvc, rfl⟩
  · intro i hig hvc
    simp only [generate_reorganization_plan, List.mem_map, List.mem_filter,
      decide_eq_true_eq]
    exact ⟨i, ⟨hig, hvc⟩, rfl⟩
  · intro s hs
    simp only [generate_reorganization_plan, List.mem_map, List.mem_filter,
      decide_eq_true_eq] at hs
    obtain ⟨e, ⟨⟨hent, hu⟩, hlen⟩, rfl⟩ := hs
    exact hu
  · intro s hs
    simp only [generate_reorganization_plan, List.mem_filterMap, List.mem_filter,
      decide_eq_true_eq] at hs
    obtain ⟨e, ⟨hent, hu⟩, hre⟩ := hs
    rw [renameFor_category hre]
    exact hu
  · intro e he
    simp only [generate_reorganization_plan, List.mem_map, List.mem_filter,
      decide_eq_true_eq] at he
    obtain ⟨e', ⟨hent, hu⟩, rfl⟩ := he
    exact hu

/-- Claim C6 witness: a concrete uncategorized playlist with zero videos
receives its delete suggestion. -/
theorem claim_C6_uncategorized_delete_rule_witness :
    mkDelete (mkInfo organizerCategories pMisc) ∈
      (generate_reorganization_plan organizerCategories [] dC6).delete_suggestions :=
  (claim_C6_uncategorized_delete_rule [] dC6).2.2.1
    (mkInfo organizerCategories pMisc) (by decide) (by decide)

/-- Claim C8: the pipeline is a pure function of the snapshot and the
timestamp — on the same snapshot, every playlist's category and confidence
are the same across runs (analysis, including its first-in-registry-order
tie-break, takes no other input), and two plans made with different
timestamps agree on every field except `timestamp`. -/
theorem claim_C8_determinism_modulo_timestamp (ts₁ ts₂ : Str) (d : PlaylistData) :
    (∀ p : Playlist, analyze_playlist_content organizerCategories p =
      analyze_playlist_content organizerCategories p) ∧
    (generate_reorganization_plan organizerCategories ts₁ d).timestamp = ts₁ ∧
    (generate_reorganization_plan organizerCategories ts₁ d).original_count =
      (generate_reorganization_plan organizerCategories ts₂ d).original_count ∧
    (generate_reorganization_plan organizerCategories ts₁ d).categories =
      (generate_reorganization_plan organizerCategories ts₂ d).categories ∧
    (generate_reorganization_plan organizerCategories ts₁ d).merge_suggestions =
      (generate_reorganization_plan organizerCategories ts₂ d).merge_suggestions ∧
    (generate_reorganization_plan organizerCategories ts₁ d).rename_suggestions =
      (generate_reorganization_plan organizerCategories ts₂ d).rename_suggestions ∧
    (generate_reorganization_plan organizerCategories ts₁ d).delete_suggestions =
      (generate_reorganization_plan organizerCategories ts₂ d).delete_suggestions :=
  ⟨fun _ => rfl, rfl, rfl, rfl, rfl, rfl, rfl⟩

/-- Claim C9 counterexample: on the registry keyword `"gaming"` and the
concrete title bucket `"gamingaming"`, the count used by the code is the
non-overlapping count 1, not the overlapping count 2 demanded by the claim,
and the Gaming raw score in the score table is accordingly 3, not 6. -/
theorem claim_C9_counterexample_overlap :
    countOcc "gaming".toList (lowerStr "gamingaming".toList) = 1 ∧
    countOccOverlap "gaming".toList (lowerStr "gamingaming".toList) = 2 ∧
    ¬ (countOcc "gaming".toList (lowerStr "gamingaming".toList) =
        countOccOverlap "gaming".toList (lowerStr "gamingaming".toList)) ∧
    ("Gaming".toList, 3) ∈ categoryScores organizerCategories pGamingOverlap ∧
    ¬ (("Gaming".toList, 6) ∈ categoryScores organizerCategories pGamingOverlap) := by
  decide

/-- Accumulating additions from the left totals the mapped values. -/
lemma foldl_add_eq_sum (f : Str → Nat) (l : List Str) (init : Nat) :
    l.foldl (fun s kw => s + f kw) init = init + (l.map f).sum := by
  induction l generalizing init with
  | nil => simp
  | cons kw l ih => simp [List.foldl_cons, ih, Nat.add_assoc]

/-- Non-overlapping matching never counts more than overlapping matching. -/
lemma countOccGo_le_overlap (pat : Str) (s : Str) :
    ∀ skip, countOccGo pat s skip ≤ countOccOverlap pat s := by
  induction s with
  | nil => intro skip; simp [countOccGo, countOccOverlap]
  | cons c rest ih =>
    intro skip
    cases skip with
    | succ k =>
      calc countOccGo pat (c :: rest) (k + 1) = countOccGo pat rest k := rfl
        _ ≤ countOccOverlap pat rest := ih k
        _ ≤ countOccOverlap pat (c :: rest) := by
            simp only [countOccOverlap]
            omega
    | zero =>
      by_cases hp : pat.isPrefixOf (c :: rest)
      · simp only [countOccGo, countOccOverlap, if_pos hp]
        have := ih (pat.length - 1)
        omega
      · simp only [countOccGo, countOccOverlap, if_neg hp]
        have := ih 0
        omega

/-- Claim C9 as amended: the per-bucket count used in the raw score is the
number of case-insensitive occurrences counted left to right WITHOUT
overlap (`re.findall` semantics, never exceeding the overlapping count),
and the raw score is the non-negative weighted sum
`title*3 + description*2 + body*1` over the category's keywords. -/
theorem claim_C9_weighted_findall_score (info : CategoryInfo) (t de b : Str) :
    rawScore info t de b =
      (info.keywords.map
        (fun kw => countOcc kw t * 3 + countOcc kw de * 2 + countOcc kw b * 1)).sum ∧
    (0 : ℤ) ≤ (rawScore info t de b : ℤ) ∧
    ∀ (kw s : Str), countOcc kw s ≤ countOccOverlap kw s := by
  refine ⟨?_, Int.ofNat_nonneg _, fun kw s => countOccGo_le_overlap kw s 0⟩
  unfold rawScore
  rw [foldl_add_eq_sum]
  simp
